import Mathlib

set_option maxHeartbeats 1600000

/-!
Verification development for the coqui-server text-to-speech service.

The development shallowly embeds the pure logic of `src/app.py`:

* `remove_markdown_styles` — the fixed-point markdown emphasis stripper
  driven by the `STYLES` table (bold `**...**` with offset 2, then italic
  `*...*` with offset 1), using `re.search` (leftmost, non-greedy) and
  `str.replace(group, group[offset:-offset], 1)`;
* `clean_text_for_tts` — the normalization pipeline (blank-line removal,
  emoji stripping, markdown stripping, literal substitutions, carriage
  return removal and trim, space collapse, degree-unit expansion);
* `tts` — the `POST /tts` handler: validation, the synthesis and
  encoding capability calls, temporary-file bookkeeping, and the
  response media type.

Python strings are modeled as `List Char` (a Python `str` is a sequence
of Unicode code points).  Machine-external capabilities (the TTS model,
the FLAC encoder) are parameters of the handler, as the specification
treats them as opaque collaborators.
-/

/-- A Python string: a finite sequence of Unicode code points. -/
abbrev Str := List Char

/-- The characters `str.splitlines` treats as line boundaries:
`\\n`, `\\v`, `\\f`, `\\r`, `\\x1c`, `\\x1d`, `\\x1e`, `\\x85`, and the
Unicode separators U+2028 and U+2029. -/
def pyLineBoundary (c : Char) : Bool :=
  c = '\n' || c = Char.ofNat 0x0b || c = Char.ofNat 0x0c || c = '\r' ||
  c = Char.ofNat 0x1c || c = Char.ofNat 0x1d || c = Char.ofNat 0x1e ||
  c = Char.ofNat 0x85 || c = Char.ofNat 0x2028 || c = Char.ofNat 0x2029

/-- The characters `str.strip()` removes: Unicode whitespace as Python
defines it for `str.isspace`. -/
def pyWhitespace (c : Char) : Bool :=
  c = Char.ofNat 0x09 || c = '\n' || c = Char.ofNat 0x0b || c = Char.ofNat 0x0c ||
  c = '\r' || c = Char.ofNat 0x1c || c = Char.ofNat 0x1d || c = Char.ofNat 0x1e ||
  c = Char.ofNat 0x1f || c = ' ' || c = Char.ofNat 0x85 || c = Char.ofNat 0xa0 ||
  c = Char.ofNat 0x1680 ||
  (Char.ofNat 0x2000 ≤ c && c ≤ Char.ofNat 0x200a) ||
  c = Char.ofNat 0x2028 || c = Char.ofNat 0x2029 || c = Char.ofNat 0x202f ||
  c = Char.ofNat 0x205f || c = Char.ofNat 0x3000

/-- Worker for `str.splitlines`: `cur` holds the current line reversed.
A `\r\n` pair counts as a single boundary; a trailing boundary does not
produce a final empty line. -/
def splitlinesAux (cur : Str) : Str → List Str
  | [] => if cur.isEmpty then [] else [cur.reverse]
  | [c] =>
      if pyLineBoundary c then [cur.reverse] else [(c :: cur).reverse]
  | c :: d :: cs =>
      if c = '\r' then
        if d = '\n' then cur.reverse :: splitlinesAux [] cs
        else cur.reverse :: splitlinesAux [] (d :: cs)
      else if pyLineBoundary c then cur.reverse :: splitlinesAux [] (d :: cs)
      else splitlinesAux (c :: cur) (d :: cs)

/-- Python `text.splitlines()`. -/
def pySplitlines (s : Str) : List Str := splitlinesAux [] s

/-- Python `os.linesep.join(lines)` on Linux, where `os.linesep` is the
single character `\n` (the service runs on a Linux host). -/
def joinLines : List Str → Str
  | [] => []
  | [l] => l
  | l :: l2 :: ls => l ++ '\n' :: joinLines (l2 :: ls)

/-- Modelled from the spec: `demoji.replace(text, "")` removes all
emoji/pictographic Unicode symbols, replacing each with the empty
string.  The `demoji` package is an external library whose code is not
in this repository; its character class is modeled as the main
emoji/pictographic code-point blocks. -/
def isEmojiChar (c : Char) : Bool :=
  (Char.ofNat 0x1F000 ≤ c && c ≤ Char.ofNat 0x1FAFF) ||
  (Char.ofNat 0x2600 ≤ c && c ≤ Char.ofNat 0x27BF) ||
  c = Char.ofNat 0xFE0F

/-- Modelled from the spec: emoji stripping deletes every emoji
character and inserts nothing. -/
def demojiReplace (s : Str) : Str := s.filter (fun c => !(isEmojiChar c))

/-- Python `text.replace(String(a), r)` for a single-character pattern
`a`: every occurrence of `a` is replaced by `r`, scanning left to
right. -/
def replaceChar (a : Char) (r : Str) : Str → Str
  | [] => []
  | c :: cs => if c = a then r ++ replaceChar a r cs else c :: replaceChar a r cs

/-- Python `text.replace("  +", "  -")`: a literal (non-regex)
replacement of the exact three-character substring of two spaces
followed by a plus sign, scanning left to right without overlap. -/
def replacePlusSeq : Str → Str
  | ' ' :: ' ' :: '+' :: cs => ' ' :: ' ' :: '-' :: replacePlusSeq cs
  | c :: cs => c :: replacePlusSeq cs
  | [] => []

/-- Python `text.replace(String(['°', u]), rep)` for the two-character
degree-unit patterns `°F`, `°C`, `°K`: literal replacement, scanning
left to right without overlap. -/
def replaceDeg (u : Char) (rep : Str) : Str → Str
  | '°' :: c :: cs =>
      if c = u then rep ++ replaceDeg u rep cs
      else '°' :: replaceDeg u rep (c :: cs)
  | c :: cs => c :: replaceDeg u rep cs
  | [] => []

/-- Python `text.strip()`: remove leading and trailing whitespace. -/
def pyStrip (s : Str) : Str :=
  ((s.dropWhile pyWhitespace).reverse.dropWhile pyWhitespace).reverse

/-- Python `re.sub(" +", " ", text)`: every maximal run of spaces is
replaced by a single space. -/
def collapseSpaces : Str → Str
  | a :: b :: cs =>
      if a = ' ' && b = ' ' then collapseSpaces (b :: cs)
      else a :: collapseSpaces (b :: cs)
  | [a] => [a]
  | [] => []

/-- Python `s.replace(p, r, 1)`: replace the first (leftmost)
occurrence of `p` in `s` by `r`, leaving the rest unchanged. -/
def replaceFirst (p r : Str) : Str → Str
  | [] => if p.isEmpty then r else []
  | c :: cs =>
      if p.isPrefixOf (c :: cs) then r ++ (c :: cs).drop p.length
      else c :: replaceFirst p r cs

/-- Does `p` occur as a contiguous substring of `s`?  (Used to state
absence of the degree-unit and double-space patterns.) -/
def containsSub (p : Str) : Str → Bool
  | [] => p.isEmpty
  | c :: cs => p.isPrefixOf (c :: cs) || containsSub p cs

/-- Does `s` contain two adjacent spaces? -/
def hasDS : Str → Bool
  | a :: b :: cs => (a = ' ' && b = ' ') || hasDS (b :: cs)
  | _ => false

/-- The delimiter of a style: `offset` copies of the asterisk (the
regex `\*\*(.*?)\*\*` has offset 2, `\*(.*?)\*` has offset 1). -/
def delim (off : Nat) : Str := List.replicate off '*'

/-- The regex engine looking for the closing delimiter after an opening
one: `(.*?)` consumes the shortest run of non-newline characters after
which `delim off` follows (Python `.` does not match `\n`).  Returns
the inner content and the text after the closing delimiter, or `none`
when no close exists before the end of the line. -/
def findClose (off : Nat) : Str → Option (Str × Str)
  | [] => none
  | c :: cs =>
      if (delim off).isPrefixOf (c :: cs) then some ([], (c :: cs).drop off)
      else if c = '\n' then none
      else
        match findClose off cs with
        | some (inner, rest) => some (c :: inner, rest)
        | none => none

/-- Python `re.search` for the style pattern: scan for the leftmost
position where the opening delimiter matches and a close exists; the
non-greedy group takes the shortest inner content.  Returns the text
before the match, the inner group, and the text after the match. -/
def searchStyle (off : Nat) : Str → Option (Str × Str × Str)
  | [] => none
  | c :: cs =>
      if (delim off).isPrefixOf (c :: cs) then
        match findClose off ((c :: cs).drop off) with
        | some (inner, rest) => some ([], inner, rest)
        | none =>
            match searchStyle off cs with
            | some (pre, inner, rest) => some (c :: pre, inner, rest)
            | none => none
      else
        match searchStyle off cs with
        | some (pre, inner, rest) => some (c :: pre, inner, rest)
        | none => none

/-- The full matched span `match.group()`: delimiters plus inner. -/
def styleGroup (off : Nat) (inner : Str) : Str := delim off ++ inner ++ delim off

/-- One iteration of the `while match:` body of
`remove_markdown_styles`:
`message = message.replace(group, group[offset:-offset], 1)`. -/
def styleStepFn (off : Nat) (inner : Str) (message : Str) : Str :=
  replaceFirst (styleGroup off inner) inner message

/-- The `while match:` loop of `remove_markdown_styles`, run on a fuel
bound.  Each iteration shortens the message by `2 * off` characters
(proved below), so fuel `message.length` always reaches the
fixed point. -/
def removeStyleFuel (off : Nat) : Nat → Str → Str
  | 0, m => m
  | fuel + 1, m =>
      match searchStyle off m with
      | none => m
      | some (_, inner, _) => removeStyleFuel off fuel (styleStepFn off inner m)

/-- The exhaustion of one style: loop until `re.search` returns no
match. -/
def removeStyle (off : Nat) (m : Str) : Str := removeStyleFuel off m.length m

/-- One entry of the module-level `STYLES` table. -/
structure MdStyle where
  style : String
  offset : Nat

/-- The `STYLES` table: bold before italic. -/
def STYLES : List MdStyle := [⟨"BOLD", 2⟩, ⟨"ITALIC", 1⟩]

/-- `remove_markdown_styles(text)`: for each style in `STYLES`, run the
search-and-replace loop to exhaustion. -/
def remove_markdown_styles (text : Str) : Str :=
  STYLES.foldl (fun message st => removeStyle st.offset message) text

/-- `clean_text_for_tts(text)`: the full normalization pipeline of
`src/app.py`, line by line. -/
def clean_text_for_tts (text : Str) : Str :=
  let t1 := joinLines ((pySplitlines text).filter (fun s => !s.isEmpty))
  let t2 := demojiReplace t1
  let t3 := remove_markdown_styles t2
  let t4 := replaceChar '%' " percent".toList t3
  let t5 := replaceChar '*' "-".toList t4
  let t6 := replacePlusSeq t5
  let t7 := pyStrip (replaceChar '\r' [] t6)
  let t8 := collapseSpaces t7
  let t9 := replaceDeg 'F' "° Fahrenheit".toList t8
  let t10 := replaceDeg 'C' "° Celsius".toList t9
  replaceDeg 'K' "° Kelvin".toList t10

/-- The steps of `clean_text_for_tts` after markdown stripping, shared
by the relational presentation of the pipeline. -/
def postMarkdown (m : Str) : Str :=
  replaceDeg 'K' "° Kelvin".toList
    (replaceDeg 'C' "° Celsius".toList
      (replaceDeg 'F' "° Fahrenheit".toList
        (collapseSpaces
          (pyStrip (replaceChar '\r' []
            (replacePlusSeq
              (replaceChar '*' "-".toList
                (replaceChar '%' " percent".toList m))))))))

/-- The steps of `clean_text_for_tts` before markdown stripping. -/
def preMarkdown (text : Str) : Str :=
  demojiReplace (joinLines ((pySplitlines text).filter (fun s => !s.isEmpty)))

/-- Defined from the spec for the refinement claim: one rewrite of the
sequential fixed-point algorithm replaces the ENTIRE matched span
(delimiters included) by the inner content only (delimiters
stripped). -/
def specStripFuel (off : Nat) : Nat → Str → Str
  | 0, m => m
  | fuel + 1, m =>
      match searchStyle off m with
      | none => m
      | some (pre, inner, rest) => specStripFuel off fuel (pre ++ inner ++ rest)

/-- Defined from the spec: repeat the span replacement of one style
until no further match of that style exists. -/
def specStripStyle (off : Nat) (m : Str) : Str := specStripFuel off m.length m

/-- Defined from the spec: bold pairs are processed to exhaustion
before italic begins. -/
def specMarkdownStrip (s : Str) : Str := specStripStyle 1 (specStripStyle 2 s)

/-- One step of the `while match:` loop, as a relation: the loop body
fires exactly when `re.search` finds a match. -/
inductive StyleStep (off : Nat) : Str → Str → Prop where
  | step {m pre inner rest} :
      searchStyle off m = some (pre, inner, rest) →
      StyleStep off m (styleStepFn off inner m)

/-- The loop of one style has finished: no match remains. -/
def StyleDone (off : Nat) (m : Str) : Prop := searchStyle off m = none

/-- A complete run of `remove_markdown_styles`: the bold loop runs to
exhaustion, then the italic loop runs to exhaustion. -/
def MarkdownRun (x y : Str) : Prop :=
  ∃ mid, Relation.ReflTransGen (StyleStep 2) x mid ∧ StyleDone 2 mid ∧
    Relation.ReflTransGen (StyleStep 1) mid y ∧ StyleDone 1 y

/-- A complete run of `clean_text_for_tts`: the deterministic steps
around a terminating run of the markdown loops. -/
def NormalizeRun (x y : Str) : Prop :=
  ∃ m, MarkdownRun (preMarkdown x) m ∧ y = postMarkdown m

instance {ε α : Type} [DecidableEq ε] [DecidableEq α] : DecidableEq (Except ε α) :=
  fun x y =>
    match x, y with
    | .error a, .error b => decidable_of_iff (a = b) (by simp)
    | .ok a, .ok b => decidable_of_iff (a = b) (by simp)
    | .error _, .ok _ => isFalse (fun h => Except.noConfusion h)
    | .ok _, .error _ => isFalse (fun h => Except.noConfusion h)

/-- The two temporary files the handler may stage on disk. -/
inductive TempKind where
  | wav
  | flac
deriving DecidableEq, Repr

/-- How a request fails: a deliberate `HTTPException(status, detail)`
raised by validation, or an error of the synthesis or encoding
capability propagating out of the handler. -/
inductive HandlerError where
  | httpException (status : Nat) (detail : String)
  | upstream (msg : String)
deriving DecidableEq, Repr

/-- One invocation of the synthesis capability
`tts_client.tts_to_file(text=..., speaker=..., speed=...)`. -/
structure SynthCall (Sp : Type) where
  textArg : Str
  speaker : String
  speed : Sp
deriving DecidableEq, Repr

/-- The HTTP response: body bytes plus media type. -/
structure TtsResponse (Audio : Type) where
  content : Audio
  media_type : String
deriving DecidableEq, Repr

/-- Everything observable about one run of the handler: the outcome,
the synthesis calls made, and which temporary files were created and
which were deleted before the handler finished. -/
structure TtsOutcome (Sp Audio : Type) where
  result : Except HandlerError (TtsResponse Audio)
  synthCalls : List (SynthCall Sp)
  tempsCreated : List TempKind
  tempsRemoved : List TempKind
deriving DecidableEq, Repr

/-- The `POST /tts` handler of `src/app.py`.  `synthesize` is the
opaque synthesis capability (the audio written to the staged WAV file),
`encode` the opaque lossless encoding capability (the bytes of the FLAC
file produced from the WAV file); either may fail, modeling a raised
exception.  Validation: falsy `text` (missing or empty) and falsy
`speaker_id` (missing or zero) raise HTTP 400.  The staged files are
deleted only on the success paths, exactly as in the source. -/
def tts {Sp Audio : Type}
    (synthesize : Str → String → Sp → Except String Audio)
    (encode : Audio → Except String Audio)
    (text : Option Str) (speaker_id : Option Int)
    (speed : Sp) (compress : Bool) : TtsOutcome Sp Audio :=
  if text = none ∨ text = some [] then
    ⟨.error (.httpException 400 "Text to convert into speech must be provided."),
      [], [], []⟩
  else if speaker_id = none ∨ speaker_id = some 0 then
    ⟨.error (.httpException 400 "Speaker ID must be provided."), [], [], []⟩
  else
    let t := text.getD []
    let sid := speaker_id.getD 0
    let call : SynthCall Sp := ⟨clean_text_for_tts t, "p" ++ toString sid, speed⟩
    match synthesize call.textArg call.speaker call.speed with
    | .error e => ⟨.error (.upstream e), [call], [.wav], []⟩
    | .ok audio =>
        if compress then
          match encode audio with
          | .error e => ⟨.error (.upstream e), [call], [.wav, .flac], []⟩
          | .ok flacBytes =>
              ⟨.ok ⟨flacBytes, "audio/flac"⟩, [call], [.wav, .flac], [.wav, .flac]⟩
        else
          ⟨.ok ⟨audio, "audio/wav"⟩, [call], [.wav], [.wav]⟩

/-! ### Generic helpers -/

theorem length_induction {P : Str → Prop}
    (ih : ∀ s, (∀ t, List.length t < s.length → P t) → P s) : ∀ s, P s := by
  have h : ∀ n s, s.length ≤ n → P s := by
    intro n
    induction n with
    | zero =>
        intro s hs
        exact ih s (fun t ht => absurd (Nat.lt_of_lt_of_le ht hs) (Nat.not_lt_zero _))
    | succ n ihn =>
        intro s hs
        exact ih s (fun t ht => ihn t (Nat.le_of_lt_succ (Nat.lt_of_lt_of_le ht hs)))
  exact fun s => h s.length s le_rfl

theorem prefix_drop_eq {p s : Str} (h : p.isPrefixOf s) :
    s = p ++ s.drop p.length := by
  obtain ⟨t, rfl⟩ := List.isPrefixOf_iff_prefix.mp h
  rw [List.drop_left]

theorem delim_length (off : Nat) : (delim off).length = off := by
  simp [delim]

theorem delim_ne_nil {off : Nat} (h : 1 ≤ off) : delim off ≠ [] := by
  cases off with
  | zero => omega
  | succ n => simp [delim]

/-! ### Correctness of the regex search -/

theorem findClose_decomp (off : Nat) :
    ∀ t inner rest, findClose off t = some (inner, rest) →
      t = inner ++ delim off ++ rest ∧ '\n' ∉ inner := by
  intro t
  induction t with
  | nil => intro inner rest h; simp [findClose] at h
  | cons c cs IH =>
    intro inner rest h
    rw [findClose] at h
    by_cases hp : (delim off).isPrefixOf (c :: cs)
    · rw [if_pos hp] at h
      simp only [Option.some.injEq, Prod.mk.injEq] at h
      obtain ⟨h1, h2⟩ := h
      subst h1; subst h2
      refine ⟨?_, by simp⟩
      have := prefix_drop_eq hp
      rw [delim_length] at this
      simpa using this
    · rw [if_neg hp] at h
      by_cases hn : c = '\n'
      · rw [if_pos hn] at h; exact absurd h (by simp)
      · rw [if_neg hn] at h
        rcases hfc : findClose off cs with _ | ⟨i0, r0⟩
        · rw [hfc] at h; exact absurd h (by simp)
        · rw [hfc] at h
          simp only [Option.some.injEq, Prod.mk.injEq] at h
          obtain ⟨h1, h2⟩ := h
          subst h1; subst h2
          obtain ⟨hd, hni⟩ := IH i0 r0 hfc
          constructor
          · simpa using congrArg (c :: ·) hd
          · intro hmem
            rcases List.mem_cons.mp hmem with h | h
            · exact hn h.symm
            · exact hni h

theorem findClose_ne_none (off : Nat) (hoff : 1 ≤ off) :
    ∀ inner z, '\n' ∉ inner →
      findClose off (inner ++ delim off ++ z) ≠ none := by
  intro inner
  induction inner with
  | nil =>
    intro z _ hcontra
    have hne : delim off ++ z ≠ [] := by
      intro h
      exact delim_ne_nil hoff (List.append_eq_nil.mp h).1
    rcases hd : delim off ++ z with _ | ⟨c, cs⟩
    · exact hne hd
    · have hp : (delim off).isPrefixOf (c :: cs) := by
        rw [← hd]
        exact List.isPrefixOf_iff_prefix.mpr (List.prefix_append _ _)
      rw [List.nil_append, hd, findClose, if_pos hp] at hcontra
      exact absurd hcontra (by simp)
  | cons c cs IH =>
    intro z hni hcontra
    have hc : c ≠ '\n' := fun h => hni (by simp [h])
    have hni2 : '\n' ∉ cs := fun h => hni (List.mem_cons_of_mem _ h)
    rw [show c :: cs ++ delim off ++ z = c :: (cs ++ delim off ++ z) by simp,
      findClose] at hcontra
    by_cases hp : (delim off).isPrefixOf (c :: (cs ++ delim off ++ z))
    · rw [if_pos hp] at hcontra
      exact absurd hcontra (by simp)
    · rw [if_neg hp, if_neg hc] at hcontra
      rcases hfc : findClose off (cs ++ delim off ++ z) with _ | ⟨i0, r0⟩
      · exact IH z hni2 hfc
      · rw [hfc] at hcontra
        exact absurd hcontra (by simp)

theorem searchStyle_decomp (off : Nat) :
    ∀ s pre inner rest, searchStyle off s = some (pre, inner, rest) →
      s = pre ++ styleGroup off inner ++ rest ∧ '\n' ∉ inner := by
  intro s
  induction s with
  | nil => intro pre inner rest h; simp [searchStyle] at h
  | cons c cs IH =>
    intro pre inner rest h
    rw [searchStyle] at h
    by_cases hp : (delim off).isPrefixOf (c :: cs)
    · rw [if_pos hp] at h
      rcases hfc : findClose off ((c :: cs).drop off) with _ | ⟨i0, r0⟩
      · rw [hfc] at h
        rcases hs : searchStyle off cs with _ | ⟨⟨p0, i1, r1⟩⟩
        · rw [hs] at h; exact absurd h (by simp)
        · rw [hs] at h
          simp only [Option.some.injEq, Prod.mk.injEq] at h
          obtain ⟨rfl, rfl, rfl⟩ := h
          obtain ⟨hd, hni⟩ := IH p0 i1 r1 hs
          exact ⟨by simpa using congrArg (c :: ·) hd, hni⟩
      · rw [hfc] at h
        simp only [Option.some.injEq, Prod.mk.injEq] at h
        obtain ⟨rfl, rfl, rfl⟩ := h
        obtain ⟨hd, hni⟩ := findClose_decomp off _ _ _ hfc
        refine ⟨?_, hni⟩
        have hpre := prefix_drop_eq hp
        rw [delim_length] at hpre
        rw [styleGroup]
        calc c :: cs = delim off ++ (c :: cs).drop off := hpre
          _ = delim off ++ (i0 ++ delim off ++ r0) := by rw [← hd]
          _ = [] ++ (delim off ++ i0 ++ delim off) ++ r0 := by simp
    · rw [if_neg hp] at h
      rcases hs : searchStyle off cs with _ | ⟨⟨p0, i1, r1⟩⟩
      · rw [hs] at h; exact absurd h (by simp)
      · rw [hs] at h
        simp only [Option.some.injEq, Prod.mk.injEq] at h
        obtain ⟨rfl, rfl, rfl⟩ := h
        obtain ⟨hd, hni⟩ := IH p0 i1 r1 hs
        exact ⟨by simpa using congrArg (c :: ·) hd, hni⟩

/-! ### The loop body: `str.replace(group, inner, 1)` rewrites exactly
the matched span -/

theorem drop_delim (off : Nat) (X : Str) : (delim off ++ X).drop off = X := by
  have h := List.drop_left (delim off) X
  rwa [delim_length] at h

theorem styleGroup_ne_nil {off : Nat} (hoff : 1 ≤ off) (inner : Str) :
    styleGroup off inner ≠ [] := by
  rw [styleGroup]
  intro h
  exact delim_ne_nil hoff (List.append_eq_nil.mp (List.append_eq_nil.mp h).1).1

theorem replaceFirst_at_head {p r t : Str} (hp : p ≠ []) :
    replaceFirst p r (p ++ t) = r ++ t := by
  rcases hd : p ++ t with _ | ⟨c, cs⟩
  · exact absurd hd (by simp [hp])
  · have hpre : p.isPrefixOf (c :: cs) := by
      rw [← hd]
      exact List.isPrefixOf_iff_prefix.mpr (List.prefix_append _ _)
    rw [replaceFirst, if_pos hpre, ← hd, List.drop_left]

theorem searchStyle_replaceFirst (off : Nat) (hoff : 1 ≤ off) :
    ∀ s pre inner rest, searchStyle off s = some (pre, inner, rest) →
      replaceFirst (styleGroup off inner) inner s = pre ++ inner ++ rest := by
  intro s
  induction s with
  | nil => intro pre inner rest h; simp [searchStyle] at h
  | cons c cs IH =>
    intro pre inner rest h
    rw [searchStyle] at h
    by_cases hp : (delim off).isPrefixOf (c :: cs)
    · rw [if_pos hp] at h
      rcases hfc : findClose off ((c :: cs).drop off) with _ | ⟨i0, r0⟩
      · rw [hfc] at h
        rcases hs : searchStyle off cs with _ | ⟨⟨p0, i1, r1⟩⟩
        · rw [hs] at h; exact absurd h (by simp)
        · rw [hs] at h
          simp only [Option.some.injEq, Prod.mk.injEq] at h
          obtain ⟨rfl, rfl, rfl⟩ := h
          have hni1 : '\n' ∉ i1 := (searchStyle_decomp off cs p0 i1 r1 hs).2
          have hgp : ¬ (styleGroup off i1).isPrefixOf (c :: cs) := by
            intro hg
            obtain ⟨u, hu⟩ := List.isPrefixOf_iff_prefix.mp hg
            have hdrop : (c :: cs).drop off = i1 ++ (delim off ++ u) := by
              rw [← hu, styleGroup]
              simp only [List.append_assoc]
              exact drop_delim off _
            apply findClose_ne_none off hoff i1 u hni1
            rw [← List.append_assoc] at hdrop
            exact hdrop ▸ hfc
          rw [replaceFirst, if_neg hgp, IH p0 i1 r1 hs]
          simp
      · rw [hfc] at h
        simp only [Option.some.injEq, Prod.mk.injEq] at h
        obtain ⟨rfl, rfl, rfl⟩ := h
        have hd := (searchStyle_decomp off (c :: cs) [] i0 r0 (by
          rw [searchStyle, if_pos hp, hfc])).1
        rw [List.nil_append] at hd
        rw [hd, replaceFirst_at_head (styleGroup_ne_nil hoff i0)]
        simp
    · rw [if_neg hp] at h
      rcases hs : searchStyle off cs with _ | ⟨⟨p0, i1, r1⟩⟩
      · rw [hs] at h; exact absurd h (by simp)
      · rw [hs] at h
        simp only [Option.some.injEq, Prod.mk.injEq] at h
        obtain ⟨rfl, rfl, rfl⟩ := h
        have hgp : ¬ (styleGroup off i1).isPrefixOf (c :: cs) := by
          intro hg
          apply hp
          apply List.isPrefixOf_iff_prefix.mpr
          apply List.IsPrefix.trans _ (List.isPrefixOf_iff_prefix.mp hg)
          rw [styleGroup, List.append_assoc]
          exact List.prefix_append _ _
        rw [replaceFirst, if_neg hgp, IH p0 i1 r1 hs]
        simp

/-- Each iteration of the `while match:` loop shortens the message by
exactly `2 * offset` characters. -/
theorem styleStep_length (off : Nat) (hoff : 1 ≤ off) {s pre inner rest : Str}
    (h : searchStyle off s = some (pre, inner, rest)) :
    (styleStepFn off inner s).length + 2 * off = s.length := by
  rw [styleStepFn, searchStyle_replaceFirst off hoff s pre inner rest h]
  obtain ⟨hd, -⟩ := searchStyle_decomp off s pre inner rest h
  rw [hd]
  simp only [styleGroup, List.length_append, delim_length]
  omega

/-- Fuel `m.length` suffices: the loop reaches a state with no match,
and the run is a chain of loop steps. -/
theorem removeStyleFuel_done (off : Nat) (hoff : 1 ≤ off) :
    ∀ fuel m, m.length ≤ fuel →
      searchStyle off (removeStyleFuel off fuel m) = none ∧
      Relation.ReflTransGen (StyleStep off) m (removeStyleFuel off fuel m) := by
  intro fuel
  induction fuel with
  | zero =>
    intro m hm
    have hm0 : m = [] := List.length_eq_zero.mp (Nat.le_zero.mp hm)
    subst hm0
    exact ⟨by simp [removeStyleFuel, searchStyle], Relation.ReflTransGen.refl⟩
  | succ fuel ih =>
    intro m hm
    rw [removeStyleFuel]
    rcases hs : searchStyle off m with _ | ⟨⟨pre, inner, rest⟩⟩
    · exact ⟨hs, Relation.ReflTransGen.refl⟩
    · have hlen := styleStep_length off hoff hs
      obtain ⟨h1, h2⟩ := ih (styleStepFn off inner m) (by omega)
      exact ⟨h1, Relation.ReflTransGen.head (StyleStep.step hs) h2⟩

theorem removeStyle_done (off : Nat) (hoff : 1 ≤ off) (m : Str) :
    searchStyle off (removeStyle off m) = none ∧
    Relation.ReflTransGen (StyleStep off) m (removeStyle off m) :=
  removeStyleFuel_done off hoff m.length m le_rfl

/-- The loop step is deterministic: `re.search` has one answer. -/
theorem styleStep_det {off : Nat} {m a b : Str}
    (ha : StyleStep off m a) (hb : StyleStep off m b) : a = b := by
  cases ha with
  | step h1 =>
    cases hb with
    | step h2 =>
      rw [h1] at h2
      simp only [Option.some.injEq, Prod.mk.injEq] at h2
      obtain ⟨-, rfl, -⟩ := h2
      rfl

theorem styleDone_no_step {off : Nat} {m x : Str} (hd : StyleDone off m) :
    ¬ StyleStep off m x := by
  intro h
  cases h with
  | step hs => rw [StyleDone] at hd; rw [hd] at hs; exact Option.noConfusion hs

/-- A deterministic relation reaches at most one stuck state. -/
theorem det_stuck_unique (r : Str → Str → Prop)
    (hdet : ∀ x y z, r x y → r x z → y = z) :
    ∀ a b c, Relation.ReflTransGen r a b → (∀ x, ¬ r b x) →
      Relation.ReflTransGen r a c → (∀ x, ¬ r c x) → b = c := by
  intro a b c hab hb hac hc
  revert hac
  induction hab using Relation.ReflTransGen.head_induction_on with
  | refl =>
    intro hac
    rcases Relation.ReflTransGen.cases_head hac with rfl | ⟨u, hu, -⟩
    · rfl
    · exact absurd hu (hb u)
  | head hstep hrest ih =>
    intro hac
    rcases Relation.ReflTransGen.cases_head hac with rfl | ⟨v, hv, hvc⟩
    · exact absurd hstep (hc _)
    · exact ih ((hdet _ _ _ hstep hv).symm ▸ hvc)

/-- Unfolding of the `STYLES` fold: bold to exhaustion, then italic. -/
theorem remove_markdown_styles_eq (s : Str) :
    remove_markdown_styles s = removeStyle 1 (removeStyle 2 s) := rfl

/-- The relational run of `remove_markdown_styles` is exactly its
functional value. -/
theorem markdownRun_iff (x y : Str) :
    MarkdownRun x y ↔ y = remove_markdown_styles x := by
  constructor
  · rintro ⟨mid, h2run, h2done, h1run, h1done⟩
    obtain ⟨d2, r2⟩ := removeStyle_done 2 (by omega) x
    obtain ⟨d1, r1⟩ := removeStyle_done 1 (by omega) mid
    have hmid : mid = removeStyle 2 x :=
      det_stuck_unique (StyleStep 2) (fun _ _ _ h1 h2 => styleStep_det h1 h2)
        x mid (removeStyle 2 x) h2run (fun _ => styleDone_no_step h2done)
        r2 (fun _ => styleDone_no_step d2)
    have hy : y = removeStyle 1 mid :=
      det_stuck_unique (StyleStep 1) (fun _ _ _ h1 h2 => styleStep_det h1 h2)
        mid y (removeStyle 1 mid) h1run (fun _ => styleDone_no_step h1done)
        r1 (fun _ => styleDone_no_step d1)
    rw [hy, hmid, remove_markdown_styles_eq]
  · rintro rfl
    obtain ⟨d2, r2⟩ := removeStyle_done 2 (by omega) x
    obtain ⟨d1, r1⟩ := removeStyle_done 1 (by omega) (removeStyle 2 x)
    exact ⟨removeStyle 2 x, r2, d2, by rw [remove_markdown_styles_eq]; exact r1,
      by rw [remove_markdown_styles_eq]; exact d1⟩

/-! ### The spec description of the markdown pass agrees with the code -/

theorem specStripFuel_eq (off : Nat) (hoff : 1 ≤ off) :
    ∀ fuel m, specStripFuel off fuel m = removeStyleFuel off fuel m := by
  intro fuel
  induction fuel with
  | zero => intro m; rfl
  | succ fuel ih =>
    intro m
    rw [specStripFuel, removeStyleFuel]
    rcases hs : searchStyle off m with _ | ⟨⟨pre, inner, rest⟩⟩
    · rfl
    · show specStripFuel off fuel (pre ++ inner ++ rest) =
        removeStyleFuel off fuel (styleStepFn off inner m)
      rw [ih, styleStepFn, searchStyle_replaceFirst off hoff m pre inner rest hs]

/-! ### Elementary lemmas about the pipeline string operations -/

theorem mem_replaceChar {a : Char} {r : Str} :
    ∀ {s : Str} {c : Char}, c ∈ replaceChar a r s → c ∈ r ∨ c ∈ s := by
  intro s
  induction s with
  | nil => intro c h; simp [replaceChar] at h
  | cons x xs IH =>
    intro c h
    rw [replaceChar] at h
    by_cases hx : x = a
    · rw [if_pos hx] at h
      rcases List.mem_append.mp h with h | h
      · exact Or.inl h
      · rcases IH h with h | h
        · exact Or.inl h
        · exact Or.inr (List.mem_cons_of_mem _ h)
    · rw [if_neg hx] at h
      rcases List.mem_cons.mp h with rfl | h
      · exact Or.inr (List.mem_cons_self _ _)
      · rcases IH h with h | h
        · exact Or.inl h
        · exact Or.inr (List.mem_cons_of_mem _ h)

theorem not_mem_replaceChar {a : Char} {r : Str} (hr : a ∉ r) :
    ∀ {s : Str}, a ∉ replaceChar a r s := by
  intro s
  induction s with
  | nil => simp [replaceChar]
  | cons x xs IH =>
    rw [replaceChar]
    by_cases hx : x = a
    · rw [if_pos hx]
      intro h
      rcases List.mem_append.mp h with h | h
      · exact hr h
      · exact IH h
    · rw [if_neg hx]
      intro h
      rcases List.mem_cons.mp h with h | h
      · exact hx h.symm
      · exact IH h

theorem replaceChar_id {a : Char} {r : Str} :
    ∀ {s : Str}, a ∉ s → replaceChar a r s = s := by
  intro s
  induction s with
  | nil => intro _; rfl
  | cons x xs IH =>
    intro h
    have hx : x ≠ a := fun hh => h (hh ▸ List.mem_cons_self _ _)
    rw [replaceChar, if_neg hx, IH (fun hh => h (List.mem_cons_of_mem _ hh))]

theorem mem_replacePlusSeq :
    ∀ {s : Str} {c : Char}, c ∈ replacePlusSeq s → c ∈ s ∨ c = '-' := by
  intro s
  induction s using replacePlusSeq.induct with
  | case1 cs IH =>
    intro c h
    rw [replacePlusSeq] at h
    rcases List.mem_cons.mp h with rfl | h
    · exact Or.inl (by simp)
    · rcases List.mem_cons.mp h with rfl | h
      · exact Or.inl (by simp)
      · rcases List.mem_cons.mp h with rfl | h
        · exact Or.inr rfl
        · rcases IH h with h | h
          · exact Or.inl (by simp [h])
          · exact Or.inr h
  | case2 x cs hne IH =>
    intro c h
    rw [replacePlusSeq] at h
    rotate_left
    · exact fun cs1 h1 h2 => hne cs1 h1 h2
    rcases List.mem_cons.mp h with rfl | h
    · exact Or.inl (List.mem_cons_self _ _)
    · rcases IH h with h | h
      · exact Or.inl (List.mem_cons_of_mem _ h)
      · exact Or.inr h
  | case3 => intro c h; simp [replacePlusSeq] at h

theorem hasDS_cons_false {c : Char} {cs : Str} (h : hasDS (c :: cs) = false) :
    hasDS cs = false := by
  cases cs with
  | nil => rfl
  | cons b bs =>
    rw [hasDS] at h
    exact (Bool.or_eq_false_iff.mp h).2

theorem hasDS_cons_iff {c : Char} {cs : Str} :
    hasDS (c :: cs) = false ↔
      ¬(c = ' ' ∧ cs.head? = some ' ') ∧ hasDS cs = false := by
  cases cs with
  | nil => simp [hasDS]
  | cons b bs =>
    rw [hasDS]
    constructor
    · intro h
      obtain ⟨h1, h2⟩ := Bool.or_eq_false_iff.mp h
      refine ⟨?_, h2⟩
      rintro ⟨rfl, hb⟩
      simp only [List.head?] at hb
      simp [Option.some.inj hb] at h1
    · rintro ⟨h1, h2⟩
      rw [Bool.or_eq_false_iff]
      refine ⟨?_, h2⟩
      by_cases hc : c = ' '
      · by_cases hb : b = ' '
        · exact absurd ⟨hc, by simp [hb]⟩ h1
        · simp [hb]
      · simp [hc]

theorem replacePlusSeq_id :
    ∀ {s : Str}, hasDS s = false → replacePlusSeq s = s := by
  intro s
  induction s using replacePlusSeq.induct with
  | case1 cs IH =>
    intro h
    rw [hasDS] at h
    simp at h
  | case2 x cs hne IH =>
    intro h
    rw [replacePlusSeq]
    rotate_left
    · exact fun cs1 h1 h2 => hne cs1 h1 h2
    rw [IH (hasDS_cons_false h)]
  | case3 => intro _; rfl

theorem containsSub_cons_false {p : Str} {c : Char} {cs : Str} :
    containsSub p (c :: cs) = false ↔
      p.isPrefixOf (c :: cs) = false ∧ containsSub p cs = false := by
  rw [containsSub, Bool.or_eq_false_iff]

theorem containsSub_tail {p : Str} {c : Char} {cs : Str}
    (h : containsSub p (c :: cs) = false) : containsSub p cs = false :=
  (containsSub_cons_false.mp h).2

theorem two_char_pat_iff {x y c : Char} {cs : Str} :
    [x, y].isPrefixOf (c :: cs) = true ↔ c = x ∧ cs.head? = some y := by
  cases cs with
  | nil => simp [List.isPrefixOf]
  | cons d ds =>
    simp only [List.isPrefixOf, Bool.and_eq_true, beq_iff_eq, List.head?,
      Option.some.injEq]
    constructor
    · rintro ⟨h1, h2, -⟩
      exact ⟨h1.symm, h2.symm⟩
    · rintro ⟨h1, h2⟩
      exact ⟨h1.symm, h2.symm, trivial⟩

theorem mem_replaceDeg {u : Char} {rep : Str} :
    ∀ (s : Str) (c : Char), c ∈ replaceDeg u rep s → c ∈ rep ∨ c ∈ s := by
  refine replaceDeg.induct u rep
    (fun s => ∀ c : Char, c ∈ replaceDeg u rep s → c ∈ rep ∨ c ∈ s) ?_ ?_ ?_ ?_
  · intro cs IH c h
    rw [replaceDeg, if_pos rfl] at h
    rcases List.mem_append.mp h with h | h
    · exact Or.inl h
    · rcases IH c h with h | h
      · exact Or.inl h
      · exact Or.inr (by simp [h])
  · intro x cs hne IH c h
    rw [replaceDeg, if_neg hne] at h
    rcases List.mem_cons.mp h with rfl | h
    · exact Or.inr (by simp)
    · rcases IH c h with h | h
      · exact Or.inl h
      · exact Or.inr (List.mem_cons_of_mem _ h)
  · intro x cs hg IH c h
    rw [replaceDeg] at h
    rotate_left
    · exact fun c1 cs1 h1 h2 => hg c1 cs1 h1 h2
    rcases List.mem_cons.mp h with rfl | h
    · exact Or.inr (List.mem_cons_self _ _)
    · rcases IH c h with h | h
      · exact Or.inl h
      · exact Or.inr (List.mem_cons_of_mem _ h)
  · intro c h; simp [replaceDeg] at h

theorem replaceDeg_id {u : Char} {rep : Str} :
    ∀ (s : Str), containsSub ['°', u] s = false → replaceDeg u rep s = s := by
  refine replaceDeg.induct u rep
    (fun s => containsSub ['°', u] s = false → replaceDeg u rep s = s) ?_ ?_ ?_ ?_
  · intro cs IH h
    exact absurd h (by simp [containsSub, List.isPrefixOf])
  · intro x cs hne IH h
    rw [replaceDeg, if_neg hne, IH (containsSub_tail h)]
  · intro x cs hg IH h
    rw [replaceDeg]
    rotate_left
    · exact fun c1 cs1 h1 h2 => hg c1 cs1 h1 h2
    rw [IH (containsSub_tail h)]
  · intro _; rfl

theorem replaceDeg_ne_nil {u : Char} {rep : Str} (hrep : rep ≠ []) :
    ∀ (s : Str), s ≠ [] → replaceDeg u rep s ≠ [] := by
  refine replaceDeg.induct u rep
    (fun s => s ≠ [] → replaceDeg u rep s ≠ []) ?_ ?_ ?_ ?_
  · intro cs IH _
    rw [replaceDeg, if_pos rfl]
    intro h
    exact hrep (List.append_eq_nil.mp h).1
  · intro x cs hne IH _
    rw [replaceDeg, if_neg hne]
    simp
  · intro x cs hg IH _
    rw [replaceDeg]
    rotate_left
    · exact fun c1 cs1 h1 h2 => hg c1 cs1 h1 h2
    simp
  · intro h; exact absurd rfl h

theorem replaceDeg_head {u : Char} {rep : Str} (hrep : rep.head? = some '°') :
    ∀ s : Str, (replaceDeg u rep s).head? = s.head? := by
  refine replaceDeg.induct u rep
    (fun s => (replaceDeg u rep s).head? = s.head?) ?_ ?_ ?_ ?_
  · intro cs IH
    rw [replaceDeg, if_pos rfl]
    rcases rep with _ | ⟨r0, rs⟩
    · simp at hrep
    · simp only [List.cons_append, List.head?]
      rw [show r0 = '°' from Option.some.inj hrep]
  · intro x cs hne IH
    rw [replaceDeg, if_neg hne]
    rfl
  · intro x cs hg IH
    rw [replaceDeg]
    rotate_left
    · exact fun c1 cs1 h1 h2 => hg c1 cs1 h1 h2
    rfl
  · rfl

theorem getLast?_cons_of_ne_nil {a : Char} {l : Str} (h : l ≠ []) :
    (a :: l).getLast? = l.getLast? := by
  cases l with
  | nil => exact absurd rfl h
  | cons b bs => exact List.getLast?_cons_cons

theorem replaceDeg_getLast {u : Char} {rep : Str} {P : Char → Prop}
    (hrep : ∀ c, rep.getLast? = some c → P c) (hrepne : rep ≠ []) :
    ∀ (s : Str), (∀ c, s.getLast? = some c → P c) →
      ∀ c, (replaceDeg u rep s).getLast? = some c → P c := by
  refine replaceDeg.induct u rep
    (fun s => (∀ c, s.getLast? = some c → P c) →
      ∀ c, (replaceDeg u rep s).getLast? = some c → P c) ?_ ?_ ?_ ?_
  · intro cs IH hs c h
    rw [replaceDeg, if_pos rfl] at h
    rcases hcs : cs with _ | ⟨d, ds⟩
    · rw [hcs] at h
      rw [show replaceDeg u rep [] = [] from rfl, List.append_nil] at h
      exact hrep c h
    · have hne : replaceDeg u rep cs ≠ [] := by
        rw [hcs]; exact replaceDeg_ne_nil hrepne _ (by simp)
      rw [List.getLast?_append_of_ne_nil _ hne] at h
      refine IH (fun c2 h2 => hs c2 ?_) c h
      rw [List.getLast?_cons_cons, getLast?_cons_of_ne_nil (by rw [hcs]; simp)]
      exact h2
  · intro x cs hne IH hs c h
    rw [replaceDeg, if_neg hne] at h
    have hrec : replaceDeg u rep (x :: cs) ≠ [] :=
      replaceDeg_ne_nil hrepne _ (by simp)
    rw [getLast?_cons_of_ne_nil hrec] at h
    exact IH (fun c2 h2 => hs c2 (by rw [List.getLast?_cons_cons]; exact h2)) c h
  · intro x cs hg IH hs c h
    rw [replaceDeg] at h
    rotate_left
    · exact fun c1 cs1 h1 h2 => hg c1 cs1 h1 h2
    rcases hcs : cs with _ | ⟨d, ds⟩
    · rw [hcs] at h
      rw [show replaceDeg u rep [] = [] from rfl] at h
      refine hs c ?_
      rw [hcs]
      simpa using h
    · have hrec : replaceDeg u rep cs ≠ [] := by
        rw [hcs]; exact replaceDeg_ne_nil hrepne _ (by simp)
      rw [getLast?_cons_of_ne_nil hrec] at h
      refine IH (fun c2 h2 => hs c2 ?_) c h
      rw [getLast?_cons_of_ne_nil (by rw [hcs]; simp)]
      exact h2
  · intro hs c h; simp [replaceDeg] at h

theorem hasDS_append : ∀ {a b : Str}, hasDS a = false → hasDS b = false →
    ¬(a.getLast? = some ' ' ∧ b.head? = some ' ') → hasDS (a ++ b) = false := by
  intro a
  induction a with
  | nil => intro b _ hb _; simpa using hb
  | cons x xs IH =>
    intro b ha hb hj
    cases xs with
    | nil =>
      rw [List.singleton_append]
      apply hasDS_cons_iff.mpr
      refine ⟨?_, hb⟩
      rintro ⟨rfl, hh⟩
      exact hj ⟨by simp, hh⟩
    | cons y ys =>
      rw [List.cons_append, List.cons_append, hasDS]
      rw [hasDS] at ha
      obtain ⟨ha1, ha2⟩ := Bool.or_eq_false_iff.mp ha
      apply Bool.or_eq_false_iff.mpr
      refine ⟨ha1, ?_⟩
      rw [← List.cons_append]
      refine IH ha2 hb ?_
      rintro ⟨h1, h2⟩
      exact hj ⟨by rw [List.getLast?_cons_cons]; exact h1, h2⟩

theorem containsSub2_append {x y : Char} : ∀ {a b : Str},
    containsSub [x, y] a = false → containsSub [x, y] b = false →
    ¬(a.getLast? = some x ∧ b.head? = some y) →
    containsSub [x, y] (a ++ b) = false := by
  intro a
  induction a with
  | nil => intro b _ hb _; simpa using hb
  | cons c cs IH =>
    intro b ha hb hj
    rw [List.cons_append]
    apply containsSub_cons_false.mpr
    constructor
    · apply Bool.eq_false_iff.mpr
      intro htrue
      obtain ⟨rfl, hhead⟩ := two_char_pat_iff.mp htrue
      cases cs with
      | nil => exact hj ⟨by simp, by simpa using hhead⟩
      | cons d ds =>
        have hpre := (containsSub_cons_false.mp ha).1
        have hdy : d = y := by simpa using hhead
        rw [Bool.eq_false_iff] at hpre
        exact hpre (two_char_pat_iff.mpr ⟨rfl, by simp [hdy]⟩)
    · refine IH (containsSub_tail ha) hb ?_
      rintro ⟨h1, h2⟩
      cases cs with
      | nil => simp at h1
      | cons d ds =>
        exact hj ⟨by rw [getLast?_cons_of_ne_nil (by simp)]; exact h1, h2⟩

theorem replaceDeg_noDS {u : Char} {rep : Str} (hrep : hasDS rep = false)
    (hd0 : rep.head? = some '°') (hl : rep.getLast? ≠ some ' ') :
    ∀ (s : Str), hasDS s = false → hasDS (replaceDeg u rep s) = false := by
  refine replaceDeg.induct u rep
    (fun s => hasDS s = false → hasDS (replaceDeg u rep s) = false) ?_ ?_ ?_ ?_
  · intro cs IH hs
    rw [replaceDeg, if_pos rfl]
    refine hasDS_append hrep (IH (hasDS_cons_false (hasDS_cons_false hs))) ?_
    rintro ⟨h1, -⟩
    exact hl h1
  · intro x cs hne IH hs
    rw [replaceDeg, if_neg hne]
    apply hasDS_cons_iff.mpr
    refine ⟨?_, IH (hasDS_cons_false hs)⟩
    rintro ⟨h1, -⟩
    exact absurd h1 (by decide)
  · intro x cs hg IH hs
    rw [replaceDeg]
    rotate_left
    · exact fun c1 cs1 h1 h2 => hg c1 cs1 h1 h2
    apply hasDS_cons_iff.mpr
    refine ⟨?_, IH (hasDS_cons_false hs)⟩
    rintro ⟨rfl, hh2⟩
    rw [replaceDeg_head hd0] at hh2
    have := hasDS_cons_iff.mp hs
    exact this.1 ⟨rfl, hh2⟩
  · intro _; rfl

theorem replaceDeg_kills {u : Char} {rep : Str}
    (hrep : containsSub ['°', u] rep = false) (hl : rep.getLast? ≠ some '°')
    (hd0 : rep.head? = some '°') :
    ∀ (s : Str), containsSub ['°', u] (replaceDeg u rep s) = false := by
  refine replaceDeg.induct u rep
    (fun s => containsSub ['°', u] (replaceDeg u rep s) = false) ?_ ?_ ?_ ?_
  · intro cs IH
    rw [replaceDeg, if_pos rfl]
    refine containsSub2_append hrep IH ?_
    rintro ⟨h1, -⟩
    exact hl h1
  · intro x cs hne IH
    rw [replaceDeg, if_neg hne]
    apply containsSub_cons_false.mpr
    refine ⟨?_, IH⟩
    apply Bool.eq_false_iff.mpr
    intro htrue
    obtain ⟨-, hhead⟩ := two_char_pat_iff.mp htrue
    rw [replaceDeg_head hd0] at hhead
    exact hne (Option.some.inj hhead)
  · intro x cs hg IH
    rw [replaceDeg]
    rotate_left
    · exact fun c1 cs1 h1 h2 => hg c1 cs1 h1 h2
    apply containsSub_cons_false.mpr
    refine ⟨?_, IH⟩
    apply Bool.eq_false_iff.mpr
    intro htrue
    obtain ⟨hx, hhead⟩ := two_char_pat_iff.mp htrue
    rw [replaceDeg_head hd0] at hhead
    cases hcs : cs with
    | nil => rw [hcs] at hhead; simp at hhead
    | cons c1 cs1 => exact hg c1 cs1 hx hcs
  · rfl

theorem replaceDeg_preserves {u v : Char} {rep : Str}
    (hrep : containsSub ['°', v] rep = false) (hl : rep.getLast? ≠ some '°')
    (hd0 : rep.head? = some '°') :
    ∀ (s : Str), containsSub ['°', v] s = false →
      containsSub ['°', v] (replaceDeg u rep s) = false := by
  refine replaceDeg.induct u rep
    (fun s => containsSub ['°', v] s = false →
      containsSub ['°', v] (replaceDeg u rep s) = false) ?_ ?_ ?_ ?_
  · intro cs IH hs
    rw [replaceDeg, if_pos rfl]
    refine containsSub2_append hrep (IH (containsSub_tail (containsSub_tail hs))) ?_
    rintro ⟨h1, -⟩
    exact hl h1
  · intro x cs hxu IH hs
    rw [replaceDeg, if_neg hxu]
    apply containsSub_cons_false.mpr
    refine ⟨?_, IH (containsSub_tail hs)⟩
    apply Bool.eq_false_iff.mpr
    intro htrue
    obtain ⟨-, hhead⟩ := two_char_pat_iff.mp htrue
    rw [replaceDeg_head hd0] at hhead
    have hpre := (containsSub_cons_false.mp hs).1
    rw [Bool.eq_false_iff] at hpre
    exact hpre (two_char_pat_iff.mpr ⟨rfl, hhead⟩)
  · intro x cs hg IH hs
    rw [replaceDeg]
    rotate_left
    · exact fun c1 cs1 h1 h2 => hg c1 cs1 h1 h2
    apply containsSub_cons_false.mpr
    refine ⟨?_, IH (containsSub_tail hs)⟩
    apply Bool.eq_false_iff.mpr
    intro htrue
    obtain ⟨hx, hhead⟩ := two_char_pat_iff.mp htrue
    rw [replaceDeg_head hd0] at hhead
    have hpre := (containsSub_cons_false.mp hs).1
    rw [Bool.eq_false_iff] at hpre
    exact hpre (two_char_pat_iff.mpr ⟨hx, hhead⟩)
  · intro _; rfl

theorem mem_collapseSpaces :
    ∀ {s : Str} {c : Char}, c ∈ collapseSpaces s → c ∈ s := by
  intro s
  induction s using collapseSpaces.induct with
  | case1 a b cs hcond IH =>
    intro c h
    rw [collapseSpaces, if_pos hcond] at h
    exact List.mem_cons_of_mem _ (IH h)
  | case2 a b cs hcond IH =>
    intro c h
    rw [collapseSpaces, if_neg hcond] at h
    rcases List.mem_cons.mp h with rfl | h
    · exact List.mem_cons_self _ _
    · exact List.mem_cons_of_mem _ (IH h)
  | case3 a => intro c h; simpa [collapseSpaces] using h
  | case4 => intro c h; simp [collapseSpaces] at h

theorem collapseSpaces_ne_nil : ∀ {s : Str}, s ≠ [] → collapseSpaces s ≠ [] := by
  intro s
  induction s using collapseSpaces.induct with
  | case1 a b cs hcond IH =>
    intro _
    rw [collapseSpaces, if_pos hcond]
    exact IH (by simp)
  | case2 a b cs hcond IH =>
    intro _
    rw [collapseSpaces, if_neg hcond]
    simp
  | case3 a => intro _; simp [collapseSpaces]
  | case4 => intro h; exact absurd rfl h

theorem collapseSpaces_head : ∀ (s : Str),
    (collapseSpaces s).head? = s.head? := by
  intro s
  induction s using collapseSpaces.induct with
  | case1 a b cs hcond IH =>
    rw [collapseSpaces, if_pos hcond, IH]
    simp only [Bool.and_eq_true, decide_eq_true_eq] at hcond
    rw [hcond.1, hcond.2]
    rfl
  | case2 a b cs hcond IH => rw [collapseSpaces, if_neg hcond]; rfl
  | case3 a => rfl
  | case4 => rfl

theorem collapseSpaces_getLast : ∀ (s : Str),
    (collapseSpaces s).getLast? = s.getLast? := by
  intro s
  induction s using collapseSpaces.induct with
  | case1 a b cs hcond IH =>
    rw [collapseSpaces, if_pos hcond, IH, List.getLast?_cons_cons]
  | case2 a b cs hcond IH =>
    rw [collapseSpaces, if_neg hcond,
      getLast?_cons_of_ne_nil (collapseSpaces_ne_nil (by simp)), IH,
      List.getLast?_cons_cons]
  | case3 a => rfl
  | case4 => rfl

theorem collapseSpaces_noDS : ∀ (s : Str), hasDS (collapseSpaces s) = false := by
  intro s
  induction s using collapseSpaces.induct with
  | case1 a b cs hcond IH => rw [collapseSpaces, if_pos hcond]; exact IH
  | case2 a b cs hcond IH =>
    rw [collapseSpaces, if_neg hcond]
    apply hasDS_cons_iff.mpr
    refine ⟨?_, IH⟩
    rintro ⟨rfl, hh⟩
    rw [collapseSpaces_head] at hh
    apply hcond
    simp [Option.some.inj hh]
  | case3 a => rfl
  | case4 => rfl

theorem collapseSpaces_id : ∀ (s : Str), hasDS s = false → collapseSpaces s = s := by
  intro s
  induction s using collapseSpaces.induct with
  | case1 a b cs hcond IH =>
    intro h
    rw [hasDS] at h
    exact absurd (Bool.or_eq_false_iff.mp h).1 (by simp [hcond])
  | case2 a b cs hcond IH =>
    intro h
    rw [collapseSpaces, if_neg hcond, IH (hasDS_cons_false h)]
  | case3 a => intro _; rfl
  | case4 => intro _; rfl

theorem dropWhile_head_false {p : Char → Bool} :
    ∀ {s : Str} {c : Char}, (s.dropWhile p).head? = some c → p c = false := by
  intro s
  induction s with
  | nil => intro c h; simp [List.dropWhile] at h
  | cons a as IH =>
    intro c h
    rw [List.dropWhile_cons] at h
    by_cases hp : p a = true
    · rw [if_pos hp] at h
      exact IH h
    · rw [if_neg hp] at h
      have : a = c := Option.some.inj h
      rw [← this]
      exact Bool.not_eq_true _ ▸ hp

theorem dropWhile_id_of_head {p : Char → Bool} {s : Str}
    (h : ∀ c, s.head? = some c → p c = false) : s.dropWhile p = s := by
  cases s with
  | nil => rfl
  | cons a as =>
    rw [List.dropWhile_cons, if_neg]
    rw [h a rfl]
    simp

theorem mem_pyStrip {s : Str} {c : Char} (h : c ∈ pyStrip s) : c ∈ s := by
  rw [pyStrip] at h
  have h1 := List.mem_reverse.mp h
  have h2 := (List.dropWhile_sublist _).subset h1
  have h3 := List.mem_reverse.mp h2
  exact (List.dropWhile_sublist _).subset h3

theorem pyStrip_getLast {s : Str} {c : Char}
    (h : (pyStrip s).getLast? = some c) : pyWhitespace c = false := by
  rw [pyStrip, List.getLast?_reverse] at h
  exact dropWhile_head_false h

theorem pyStrip_head {s : Str} {c : Char}
    (h : (pyStrip s).head? = some c) : pyWhitespace c = false := by
  rw [pyStrip, List.head?_reverse] at h
  set Y := ((s.dropWhile pyWhitespace).reverse.dropWhile pyWhitespace) with hY
  have hYne : Y ≠ [] := by
    intro hnil
    rw [hnil] at h
    simp at h
  obtain ⟨t, ht⟩ := List.dropWhile_suffix (l := (s.dropWhile pyWhitespace).reverse)
    pyWhitespace
  rw [← hY] at ht
  have : ((s.dropWhile pyWhitespace).reverse).getLast? = some c := by
    rw [← ht, List.getLast?_append_of_ne_nil _ hYne]
    exact h
  rw [List.getLast?_reverse] at this
  exact dropWhile_head_false this

theorem pyStrip_id {s : Str}
    (hh : ∀ c, s.head? = some c → pyWhitespace c = false)
    (hl : ∀ c, s.getLast? = some c → pyWhitespace c = false) : pyStrip s = s := by
  rw [pyStrip, dropWhile_id_of_head hh, dropWhile_id_of_head
    (fun c hc => hl c (by rwa [List.head?_reverse] at hc)), List.reverse_reverse]

theorem splitlinesAux_eq_nil : ∀ (s cur : Str),
    splitlinesAux cur s = [] ↔ (cur.isEmpty = true ∧ s = []) := by
  refine length_induction ?_
  intro s IH cur
  rcases s with _ | ⟨c, _ | ⟨d, cs⟩⟩
  · rw [splitlinesAux]
    by_cases hcur : cur.isEmpty = true
    · rw [if_pos hcur]; simp [hcur]
    · rw [if_neg hcur]; simp [hcur]
  · rw [splitlinesAux]
    split <;> simp
  · rw [splitlinesAux]
    by_cases hr : c = '\r'
    · rw [if_pos hr]
      by_cases hd : d = '\n'
      · rw [if_pos hd]; simp
      · rw [if_neg hd]; simp
    · rw [if_neg hr]
      by_cases hb : pyLineBoundary c = true
      · rw [if_pos hb]; simp
      · rw [if_neg hb, IH (d :: cs) (by simp)]
        simp

theorem splitlines_no_boundary : ∀ (s cur : Str),
    (∀ c ∈ cur, pyLineBoundary c = false) →
    ∀ l ∈ splitlinesAux cur s, ∀ c ∈ l, pyLineBoundary c = false := by
  refine length_induction ?_
  intro s IH cur hok l hl
  rcases s with _ | ⟨c, _ | ⟨d, cs⟩⟩
  · rw [splitlinesAux] at hl
    by_cases hcur : cur.isEmpty = true
    · rw [if_pos hcur] at hl; simp at hl
    · rw [if_neg hcur] at hl
      rcases List.mem_singleton.mp hl with rfl
      intro c hc
      exact hok c (List.mem_reverse.mp hc)
  · rw [splitlinesAux] at hl
    by_cases hb : pyLineBoundary c = true
    · rw [if_pos hb] at hl
      rcases List.mem_singleton.mp hl with rfl
      intro c2 hc2
      exact hok c2 (List.mem_reverse.mp hc2)
    · rw [if_neg hb] at hl
      rcases List.mem_singleton.mp hl with rfl
      intro c2 hc2
      rcases List.mem_cons.mp (List.mem_reverse.mp hc2) with rfl | hc2
      · exact Bool.not_eq_true _ ▸ hb
      · exact hok c2 hc2
  · rw [splitlinesAux] at hl
    by_cases hr : c = '\r'
    · rw [if_pos hr] at hl
      by_cases hd : d = '\n'
      · rw [if_pos hd] at hl
        rcases List.mem_cons.mp hl with rfl | hl
        · intro c2 hc2
          exact hok c2 (List.mem_reverse.mp hc2)
        · exact IH cs (by simp only [List.length_cons]; omega) [] (by simp) l hl
      · rw [if_neg hd] at hl
        rcases List.mem_cons.mp hl with rfl | hl
        · intro c2 hc2
          exact hok c2 (List.mem_reverse.mp hc2)
        · exact IH (d :: cs) (by simp) [] (by simp) l hl
    · rw [if_neg hr] at hl
      by_cases hb : pyLineBoundary c = true
      · rw [if_pos hb] at hl
        rcases List.mem_cons.mp hl with rfl | hl
        · intro c2 hc2
          exact hok c2 (List.mem_reverse.mp hc2)
        · exact IH (d :: cs) (by simp) [] (by simp) l hl
      · rw [if_neg hb] at hl
        refine IH (d :: cs) (by simp) (c :: cur) ?_ l hl
        intro c2 hc2
        rcases List.mem_cons.mp hc2 with rfl | hc2
        · exact Bool.not_eq_true _ ▸ hb
        · exact hok c2 hc2

theorem mem_joinLines : ∀ {ls : List Str} {c : Char},
    c ∈ joinLines ls → c = '\n' ∨ ∃ l ∈ ls, c ∈ l := by
  intro ls
  induction ls with
  | nil => intro c h; simp [joinLines] at h
  | cons l ls IH =>
    cases ls with
    | nil =>
      intro c h
      rw [joinLines] at h
      exact Or.inr ⟨l, by simp, h⟩
    | cons l2 ls2 =>
      intro c h
      rw [joinLines] at h
      rcases List.mem_append.mp h with h | h
      · exact Or.inr ⟨l, by simp, h⟩
      · rcases List.mem_cons.mp h with rfl | h
        · exact Or.inl rfl
        · rcases IH h with h | ⟨l3, hl3, hc⟩
          · exact Or.inl h
          · exact Or.inr ⟨l3, List.mem_cons_of_mem _ hl3, hc⟩

theorem joinLines_cons_ne_nil {l : Str} {ls : List Str} (h : ls ≠ []) :
    joinLines (l :: ls) = l ++ '\n' :: joinLines ls := by
  cases ls with
  | nil => exact absurd rfl h
  | cons l2 ls2 => rw [joinLines]

theorem joinLines_splitlinesAux : ∀ (s cur : Str),
    (∀ c ∈ s, pyLineBoundary c = true → c = '\n') →
    s.getLast? ≠ some '\n' →
    [] ∉ splitlinesAux cur s →
    joinLines (splitlinesAux cur s) = cur.reverse ++ s := by
  refine length_induction ?_
  intro s IH cur honly hlast hnil
  rcases s with _ | ⟨c, _ | ⟨d, cs⟩⟩
  · rw [splitlinesAux]
    by_cases hcur : cur.isEmpty = true
    · rw [if_pos hcur, List.isEmpty_iff.mp hcur]
      rfl
    · rw [if_neg hcur, joinLines]
      simp
  · rw [splitlinesAux]
    by_cases hb : pyLineBoundary c = true
    · have hcn : c = '\n' := honly c (by simp) hb
      exact absurd (by rw [hcn]; simp) hlast
    · rw [if_neg hb, joinLines]
      simp
  · rw [splitlinesAux] at hnil ⊢
    have hr : c ≠ '\r' := by
      intro hc
      have := honly c (by simp) (by simp [hc, pyLineBoundary])
      rw [hc] at this
      exact absurd this (by decide)
    rw [if_neg hr] at hnil ⊢
    by_cases hb : pyLineBoundary c = true
    · rw [if_pos hb] at hnil ⊢
      have hcn : c = '\n' := honly c (by simp) hb
      have hrec : splitlinesAux [] (d :: cs) ≠ [] := by
        rw [Ne, splitlinesAux_eq_nil]
        rintro ⟨-, h2⟩
        exact List.cons_ne_nil _ _ h2
      rw [joinLines_cons_ne_nil hrec]
      rw [IH (d :: cs) (by simp) []
        (fun c2 h2 hb2 => honly c2 (List.mem_cons_of_mem _ h2) hb2)
        (by rwa [getLast?_cons_of_ne_nil (by simp)] at hlast)
        (fun h2 => hnil (List.mem_cons_of_mem _ h2))]
      rw [hcn]
      simp
    · rw [if_neg hb] at hnil ⊢
      rw [IH (d :: cs) (by simp) (c :: cur)
        (fun c2 h2 hb2 => honly c2 (List.mem_cons_of_mem _ h2) hb2)
        (by rwa [getLast?_cons_of_ne_nil (by simp)] at hlast) hnil]
      simp

theorem mem_replaceFirst {p r : Str} :
    ∀ {s : Str} {c : Char}, c ∈ replaceFirst p r s → c ∈ r ∨ c ∈ s := by
  intro s
  induction s with
  | nil =>
    intro c h
    rw [replaceFirst] at h
    by_cases hp : p.isEmpty = true
    · rw [if_pos hp] at h; exact Or.inl h
    · rw [if_neg hp] at h; simp at h
  | cons x xs IH =>
    intro c h
    rw [replaceFirst] at h
    by_cases hp : p.isPrefixOf (x :: xs) = true
    · rw [if_pos hp] at h
      rcases List.mem_append.mp h with h | h
      · exact Or.inl h
      · exact Or.inr ((List.drop_sublist _ _).subset h)
    · rw [if_neg hp] at h
      rcases List.mem_cons.mp h with rfl | h
      · exact Or.inr (List.mem_cons_self _ _)
      · rcases IH h with h | h
        · exact Or.inl h
        · exact Or.inr (List.mem_cons_of_mem _ h)

theorem mem_removeStyleFuel {off : Nat} :
    ∀ (fuel : Nat) (m : Str) (c : Char), c ∈ removeStyleFuel off fuel m → c ∈ m := by
  intro fuel
  induction fuel with
  | zero => intro m c h; exact h
  | succ fuel ih =>
    intro m c h
    rw [removeStyleFuel] at h
    rcases hs : searchStyle off m with _ | ⟨⟨pre, inner, rest⟩⟩
    · rw [hs] at h; exact h
    · rw [hs] at h
      have h2 := ih _ _ h
      rw [styleStepFn] at h2
      rcases mem_replaceFirst h2 with h3 | h3
      · obtain ⟨hd, -⟩ := searchStyle_decomp off m pre inner rest hs
        rw [hd, styleGroup]
        simp only [List.mem_append]
        tauto
      · exact h3

theorem mem_remove_markdown_styles {s : Str} {c : Char}
    (h : c ∈ remove_markdown_styles s) : c ∈ s := by
  rw [remove_markdown_styles_eq, removeStyle] at h
  have h1 := mem_removeStyleFuel _ _ _ h
  rw [removeStyle] at h1
  exact mem_removeStyleFuel _ _ _ h1

theorem searchStyle_none {off : Nat} (hoff : 1 ≤ off) :
    ∀ {s : Str}, '*' ∉ s → searchStyle off s = none := by
  intro s
  induction s with
  | nil => intro _; rfl
  | cons c cs IH =>
    intro h
    have hp : ¬ (delim off).isPrefixOf (c :: cs) = true := by
      intro htrue
      obtain ⟨t, ht⟩ := List.isPrefixOf_iff_prefix.mp htrue
      rcases off with _ | n
      · omega
      · rw [delim, List.replicate_succ, List.cons_append] at ht
        have : c = '*' := (List.cons.injEq _ _ _ _ ▸ ht).1.symm
        exact h (this ▸ List.mem_cons_self _ _)
    rw [searchStyle, if_neg hp, IH (fun hh => h (List.mem_cons_of_mem _ hh))]

theorem removeStyleFuel_of_none {off : Nat} {m : Str}
    (h : searchStyle off m = none) :
    ∀ fuel, removeStyleFuel off fuel m = m := by
  intro fuel
  cases fuel with
  | zero => rfl
  | succ fuel => rw [removeStyleFuel, h]

theorem remove_markdown_styles_id {s : Str} (h : '*' ∉ s) :
    remove_markdown_styles s = s := by
  have h2 : removeStyle 2 s = s := by
    rw [removeStyle, removeStyleFuel_of_none (searchStyle_none (by omega) h)]
  rw [remove_markdown_styles_eq, h2, removeStyle,
    removeStyleFuel_of_none (searchStyle_none (by omega) h)]

theorem filter_nonempty_of_no_nil {ls : List Str} (h : [] ∉ ls) :
    ls.filter (fun l => !l.isEmpty) = ls := by
  apply List.filter_eq_self.mpr
  intro l hl
  have : l ≠ [] := fun h2 => h (h2 ▸ hl)
  simp [List.isEmpty_iff, this]

/-! ### Invariants of the normalization output -/

theorem clean_text_for_tts_eq (x : Str) :
    clean_text_for_tts x = postMarkdown (remove_markdown_styles (preMarkdown x)) :=
  rfl

/-- Characters the pipeline can introduce after markdown stripping. -/
def extraChars : Str := " percent-°FahrenheitCelsiusKelvin".toList

theorem mem_extra_of_falF : ∀ c : Char, c ∈ ("° Fahrenheit".toList) → c ∈ extraChars := by
  intro c h
  fin_cases h <;> decide

theorem mem_extra_of_cel : ∀ c : Char, c ∈ ("° Celsius".toList) → c ∈ extraChars := by
  intro c h
  fin_cases h <;> decide

theorem mem_extra_of_kel : ∀ c : Char, c ∈ ("° Kelvin".toList) → c ∈ extraChars := by
  intro c h
  fin_cases h <;> decide

theorem mem_extra_of_dash : ∀ c : Char, c ∈ ("-".toList) → c ∈ extraChars := by
  intro c h
  fin_cases h
  decide

theorem mem_extra_of_pct : ∀ c : Char, c ∈ (" percent".toList) → c ∈ extraChars := by
  intro c h
  fin_cases h <;> decide

theorem mem_postMarkdown : ∀ {m : Str} {c : Char}, c ∈ postMarkdown m →
    c ∈ m ∨ c ∈ extraChars := by
  intro m c h
  rw [postMarkdown] at h
  rcases mem_replaceDeg _ _ h with h | h
  · exact Or.inr (mem_extra_of_kel c h)
  rcases mem_replaceDeg _ _ h with h | h
  · exact Or.inr (mem_extra_of_cel c h)
  rcases mem_replaceDeg _ _ h with h | h
  · exact Or.inr (mem_extra_of_falF c h)
  have h := mem_pyStrip (mem_collapseSpaces h)
  rcases mem_replaceChar h with h | h
  · simp at h
  rcases mem_replacePlusSeq h with h | rfl
  swap
  · exact Or.inr (by decide)
  rcases mem_replaceChar h with h | h
  · exact Or.inr (mem_extra_of_dash c h)
  rcases mem_replaceChar h with h | h
  · exact Or.inr (mem_extra_of_pct c h)
  exact Or.inl h

theorem not_mem_postMarkdown {m : Str} {c : Char}
    (hc : c ∉ extraChars)
    (hm : c ∉ replaceChar '\r' []
      (replacePlusSeq (replaceChar '*' "-".toList
        (replaceChar '%' " percent".toList m)))) :
    c ∉ postMarkdown m := by
  intro h
  rw [postMarkdown] at h
  rcases mem_replaceDeg _ _ h with h | h
  · exact hc (mem_extra_of_kel c h)
  rcases mem_replaceDeg _ _ h with h | h
  · exact hc (mem_extra_of_cel c h)
  rcases mem_replaceDeg _ _ h with h | h
  · exact hc (mem_extra_of_falF c h)
  exact hm (mem_pyStrip (mem_collapseSpaces h))

theorem clean_no_percent (x : Str) : '%' ∉ clean_text_for_tts x := by
  rw [clean_text_for_tts_eq]
  apply not_mem_postMarkdown (by decide)
  intro h
  rcases mem_replaceChar h with h | h
  · simp at h
  rcases mem_replacePlusSeq h with h | h
  swap
  · exact absurd h (by decide)
  rcases mem_replaceChar h with h | h
  · exact absurd h (by decide)
  exact not_mem_replaceChar (by decide) h

theorem clean_no_star (x : Str) : '*' ∉ clean_text_for_tts x := by
  rw [clean_text_for_tts_eq]
  apply not_mem_postMarkdown (by decide)
  intro h
  rcases mem_replaceChar h with h | h
  · simp at h
  rcases mem_replacePlusSeq h with h | h
  swap
  · exact absurd h (by decide)
  exact not_mem_replaceChar (by decide) h

theorem clean_no_cr (x : Str) : '\r' ∉ clean_text_for_tts x := by
  rw [clean_text_for_tts_eq]
  exact not_mem_postMarkdown (by decide)
    (not_mem_replaceChar (List.not_mem_nil _))

theorem clean_noDS (x : Str) : hasDS (clean_text_for_tts x) = false := by
  rw [clean_text_for_tts_eq, postMarkdown]
  apply replaceDeg_noDS (by decide) (by decide) (by decide)
  apply replaceDeg_noDS (by decide) (by decide) (by decide)
  apply replaceDeg_noDS (by decide) (by decide) (by decide)
  exact collapseSpaces_noDS _

theorem clean_head_not_ws (x : Str) :
    ∀ c, (clean_text_for_tts x).head? = some c → pyWhitespace c = false := by
  intro c h
  rw [clean_text_for_tts_eq, postMarkdown, replaceDeg_head (by decide),
    replaceDeg_head (by decide), replaceDeg_head (by decide),
    collapseSpaces_head] at h
  exact pyStrip_head h

theorem clean_last_not_ws (x : Str) :
    ∀ c, (clean_text_for_tts x).getLast? = some c → pyWhitespace c = false := by
  rw [clean_text_for_tts_eq, postMarkdown]
  refine replaceDeg_getLast ?_ ?_ _ ?_
  · intro c h
    rw [show ("° Kelvin".toList).getLast? = some 'n' from by decide] at h
    rw [← Option.some.inj h]
    decide
  · decide
  refine replaceDeg_getLast ?_ ?_ _ ?_
  · intro c h
    rw [show ("° Celsius".toList).getLast? = some 's' from by decide] at h
    rw [← Option.some.inj h]
    decide
  · decide
  refine replaceDeg_getLast ?_ ?_ _ ?_
  · intro c h
    rw [show ("° Fahrenheit".toList).getLast? = some 't' from by decide] at h
    rw [← Option.some.inj h]
    decide
  · decide
  intro c h
  rw [collapseSpaces_getLast] at h
  exact pyStrip_getLast h

theorem clean_no_degF (x : Str) :
    containsSub ['°', 'F'] (clean_text_for_tts x) = false := by
  rw [clean_text_for_tts_eq, postMarkdown]
  apply replaceDeg_preserves (by decide) (by decide) (by decide)
  apply replaceDeg_preserves (by decide) (by decide) (by decide)
  exact replaceDeg_kills (by decide) (by decide) (by decide) _

theorem clean_no_degC (x : Str) :
    containsSub ['°', 'C'] (clean_text_for_tts x) = false := by
  rw [clean_text_for_tts_eq, postMarkdown]
  apply replaceDeg_preserves (by decide) (by decide) (by decide)
  exact replaceDeg_kills (by decide) (by decide) (by decide) _

theorem clean_no_degK (x : Str) :
    containsSub ['°', 'K'] (clean_text_for_tts x) = false := by
  rw [clean_text_for_tts_eq, postMarkdown]
  exact replaceDeg_kills (by decide) (by decide) (by decide) _

theorem clean_only_nl (x : Str) :
    ∀ c ∈ clean_text_for_tts x, pyLineBoundary c = true → c = '\n' := by
  intro c hc hb
  rw [clean_text_for_tts_eq] at hc
  rcases mem_postMarkdown hc with h | h
  · have h2 := mem_remove_markdown_styles h
    rw [preMarkdown, demojiReplace] at h2
    have h3 := (List.mem_filter.mp h2).1
    rcases mem_joinLines h3 with rfl | ⟨l, hl, hcl⟩
    · rfl
    · have hl2 := (List.mem_filter.mp hl).1
      rw [pySplitlines] at hl2
      have hfalse := splitlines_no_boundary x [] (by simp) l hl2 c hcl
      rw [hfalse] at hb
      exact absurd hb (by decide)
  · have hall : extraChars.all (fun c2 => !(pyLineBoundary c2)) = true := by decide
    have hfalse := List.all_eq_true.mp hall c h
    rw [Bool.not_eq_true'] at hfalse
    rw [hfalse] at hb
    exact absurd hb (by decide)

theorem clean_no_emoji (x : Str) :
    ∀ c ∈ clean_text_for_tts x, isEmojiChar c = false := by
  intro c hc
  rw [clean_text_for_tts_eq] at hc
  rcases mem_postMarkdown hc with h | h
  · have h2 := mem_remove_markdown_styles h
    rw [preMarkdown, demojiReplace] at h2
    have h3 := (List.mem_filter.mp h2).2
    simpa using h3
  · have hall : extraChars.all (fun c2 => !(isEmojiChar c2)) = true := by decide
    have h2 := List.all_eq_true.mp hall c h
    simpa using h2

/-- Applying the pipeline to an already-normalized string with no blank
line is the identity: every step finds nothing to rewrite. -/
theorem clean_pass2_id {y : Str}
    (h_nostar : '*' ∉ y) (h_nopct : '%' ∉ y) (h_nocr : '\r' ∉ y)
    (h_noDS : hasDS y = false)
    (h_onlynl : ∀ c ∈ y, pyLineBoundary c = true → c = '\n')
    (h_noemoji : ∀ c ∈ y, isEmojiChar c = false)
    (h_head : ∀ c, y.head? = some c → pyWhitespace c = false)
    (h_last : ∀ c, y.getLast? = some c → pyWhitespace c = false)
    (h_f : containsSub ['°', 'F'] y = false)
    (h_c : containsSub ['°', 'C'] y = false)
    (h_k : containsSub ['°', 'K'] y = false)
    (hnil : [] ∉ pySplitlines y) :
    clean_text_for_tts y = y := by
  have h1 : joinLines ((pySplitlines y).filter (fun s => !s.isEmpty)) = y := by
    rw [filter_nonempty_of_no_nil hnil, pySplitlines]
    have hlast : y.getLast? ≠ some '\n' := by
      intro h
      exact absurd (h_last '\n' h) (by decide)
    have hmain := joinLines_splitlinesAux y [] h_onlynl hlast
      (by rwa [pySplitlines] at hnil)
    simpa using hmain
  have h2 : demojiReplace y = y := by
    rw [demojiReplace]
    apply List.filter_eq_self.mpr
    intro c hc
    simp [h_noemoji c hc]
  rw [clean_text_for_tts_eq, preMarkdown, h1, h2,
    remove_markdown_styles_id h_nostar, postMarkdown,
    replaceChar_id h_nopct, replaceChar_id h_nostar, replacePlusSeq_id h_noDS,
    replaceChar_id h_nocr, pyStrip_id h_head h_last, collapseSpaces_id _ h_noDS,
    replaceDeg_id _ h_f, replaceDeg_id _ h_c, replaceDeg_id _ h_k]

/-! ### Handler lemmas -/

theorem tts_speaker_zero_eq_missing {Sp Audio : Type}
    (synthesize : Str → String → Sp → Except String Audio)
    (encode : Audio → Except String Audio)
    (text : Option Str) (speed : Sp) (compress : Bool) :
    tts synthesize encode text (some 0) speed compress =
      tts synthesize encode text none speed compress := by
  rw [tts, tts]
  by_cases ht : text = none ∨ text = some []
  · rw [if_pos ht, if_pos ht]
  · rw [if_neg ht, if_neg ht, if_pos (Or.inr rfl), if_pos (Or.inl rfl)]

theorem tts_no_400_of_valid {Sp Audio : Type}
    (synthesize : Str → String → Sp → Except String Audio)
    (encode : Audio → Except String Audio)
    (text : Option Str) (speaker_id : Option Int) (speed : Sp) (compress : Bool)
    (ht : ¬(text = none ∨ text = some []))
    (hs : ¬(speaker_id = none ∨ speaker_id = some 0)) :
    ∀ d, (tts synthesize encode text speaker_id speed compress).result ≠
      .error (.httpException 400 d) := by
  intro d hd
  rw [tts, if_neg ht, if_neg hs] at hd
  simp only at hd
  rcases hsy : synthesize (clean_text_for_tts (text.getD []))
      ("p" ++ toString (speaker_id.getD 0)) speed with e | audio
  · rw [hsy] at hd
    simp at hd
  · rw [hsy] at hd
    rcases compress with _ | _
    · simp at hd
    · simp only [if_true] at hd
      rcases henc : encode audio with e2 | b
      · rw [henc] at hd
        simp at hd
      · rw [henc] at hd
        simp at hd

theorem tts_valid_flow {Sp Audio : Type}
    (synthesize : Str → String → Sp → Except String Audio)
    (encode : Audio → Except String Audio)
    (t : Str) (k : Int) (speed : Sp) (compress : Bool)
    (ht : t ≠ []) (hk : k ≠ 0) :
    (tts synthesize encode (some t) (some k) speed compress).synthCalls =
      [⟨clean_text_for_tts t, "p" ++ toString k, speed⟩] ∧
    (∀ audio b,
      synthesize (clean_text_for_tts t) ("p" ++ toString k) speed = .ok audio →
      compress = true → encode audio = .ok b →
      (tts synthesize encode (some t) (some k) speed compress).result =
        .ok ⟨b, "audio/flac"⟩) ∧
    (∀ audio,
      synthesize (clean_text_for_tts t) ("p" ++ toString k) speed = .ok audio →
      compress = false →
      (tts synthesize encode (some t) (some k) speed compress).result =
        .ok ⟨audio, "audio/wav"⟩) := by
  have hval1 : ¬(some t = none ∨ some t = some ([] : Str)) := by
    rintro (h | h)
    · exact Option.noConfusion h
    · exact ht (Option.some.inj h)
  have hval2 : ¬(some k = none ∨ some k = some (0 : Int)) := by
    rintro (h | h)
    · exact Option.noConfusion h
    · exact hk (Option.some.inj h)
  refine ⟨?_, ?_, ?_⟩
  · rw [tts, if_neg hval1, if_neg hval2]
    simp only [Option.getD_some]
    rcases hsy : synthesize (clean_text_for_tts t) ("p" ++ toString k) speed
      with e | audio
    · simp
    · rcases compress with _ | _
      · simp
      · rcases henc : encode audio with e2 | b <;> simp [henc]
  · intro audio b hsy hc henc
    subst hc
    rw [tts, if_neg hval1, if_neg hval2]
    simp only [Option.getD_some, hsy, henc, if_true]
  · intro audio hsy hc
    subst hc
    rw [tts, if_neg hval1, if_neg hval2]
    simp only [Option.getD_some, hsy, Bool.false_eq_true, if_false]

/-! ### The claims -/

/-- C1: the markdown-stripping pass is the sequential fixed-point
algorithm of the spec: for each style (bold `**...**` first, then italic
`*...*`), repeatedly find the first non-greedy match and replace the
entire matched span with its inner content (both delimiters stripped)
until no match of that style remains.  The code performs the span
replacement through `str.replace(group, inner, 1)`; this theorem shows
that rewrite always hits exactly the matched span, so the code equals
the span-surgery fixed point described by the spec. -/
theorem remove_markdown_styles_eq_spec_fixpoint :
    ∀ s : Str, remove_markdown_styles s = specMarkdownStrip s := by
  intro s
  have h2 : specStripStyle 2 s = removeStyle 2 s := by
    rw [specStripStyle, specStripFuel_eq 2 (by omega), removeStyle]
  have h1 : ∀ m, specStripStyle 1 m = removeStyle 1 m := fun m => by
    rw [specStripStyle, specStripFuel_eq 1 (by omega), removeStyle]
  rw [remove_markdown_styles_eq, specMarkdownStrip, h2, h1]

/-- C2: the output of `clean_text_for_tts` never contains a literal `%`,
a literal `*` (hence no bold or italic marker pattern matches in it, as
witnessed by `searchStyle` returning `none` for both styles), a carriage
return, or two adjacent spaces. -/
theorem clean_text_output_free (s : Str) :
    '%' ∉ clean_text_for_tts s ∧ '*' ∉ clean_text_for_tts s ∧
    '\r' ∉ clean_text_for_tts s ∧ hasDS (clean_text_for_tts s) = false ∧
    searchStyle 2 (clean_text_for_tts s) = none ∧
    searchStyle 1 (clean_text_for_tts s) = none :=
  ⟨clean_no_percent s, clean_no_star s, clean_no_cr s, clean_noDS s,
    searchStyle_none (by omega) (clean_no_star s),
    searchStyle_none (by omega) (clean_no_star s)⟩

/-- C3: the handler raises HTTP 400 if and only if `text` is missing or
empty or `speaker_id` is missing or zero, and `speaker_id = 0` is
rejected with the exact same outcome as a missing speaker id; with
non-empty text and nonzero speaker id no validation error is raised,
whatever the capabilities do. -/
theorem tts_validation_400_iff (Sp Audio : Type)
    (synthesize : Str → String → Sp → Except String Audio)
    (encode : Audio → Except String Audio)
    (text : Option Str) (speaker_id : Option Int) (speed : Sp) (compress : Bool) :
    ((∃ d, (tts synthesize encode text speaker_id speed compress).result =
        .error (.httpException 400 d)) ↔
      (text = none ∨ text = some [] ∨ speaker_id = none ∨ speaker_id = some 0)) ∧
    tts synthesize encode text (some 0) speed compress =
      tts synthesize encode text none speed compress := by
  refine ⟨⟨?_, ?_⟩, tts_speaker_zero_eq_missing synthesize encode text speed compress⟩
  · rintro ⟨d, hd⟩
    by_cases ht : text = none ∨ text = some []
    · tauto
    · by_cases hs : speaker_id = none ∨ speaker_id = some 0
      · tauto
      · exact absurd hd
          (tts_no_400_of_valid synthesize encode text speaker_id speed compress ht hs d)
  · intro h
    by_cases ht : text = none ∨ text = some []
    · exact ⟨"Text to convert into speech must be provided.", by rw [tts, if_pos ht]⟩
    · have hs : speaker_id = none ∨ speaker_id = some 0 := by tauto
      exact ⟨"Speaker ID must be provided.", by rw [tts, if_neg ht, if_pos hs]⟩

/-- C4: on a valid request the handler calls the synthesis capability
exactly once, with the normalized text, the speaker label `p` followed
by the decimal speaker id, and the requested speed; when the
capabilities succeed it returns the encoded bytes as `audio/flac` if
`compress` is true and the raw bytes as `audio/wav` if `compress` is
false. -/
theorem tts_valid_request_flow (Sp Audio : Type)
    (synthesize : Str → String → Sp → Except String Audio)
    (encode : Audio → Except String Audio)
    (t : Str) (k : Int) (speed : Sp) (compress : Bool)
    (ht : t ≠ []) (hk : k ≠ 0) :
    (tts synthesize encode (some t) (some k) speed compress).synthCalls =
      [⟨clean_text_for_tts t, "p" ++ toString k, speed⟩] ∧
    (∀ audio b,
      synthesize (clean_text_for_tts t) ("p" ++ toString k) speed = .ok audio →
      compress = true → encode audio = .ok b →
      (tts synthesize encode (some t) (some k) speed compress).result =
        .ok ⟨b, "audio/flac"⟩) ∧
    (∀ audio,
      synthesize (clean_text_for_tts t) ("p" ++ toString k) speed = .ok audio →
      compress = false →
      (tts synthesize encode (some t) (some k) speed compress).result =
        .ok ⟨audio, "audio/wav"⟩) :=
  tts_valid_flow synthesize encode t k speed compress ht hk

/-- C4 witness capabilities: a synthesizer and an encoder that always
succeed, over natural-number audio. -/
def synthOkW : Str → String → Nat → Except String Nat := fun _ _ _ => Except.ok 7

def encodeOkW : Nat → Except String Nat := fun _ => Except.ok 8

/-- C4 witness: the flow theorem applied at a concrete request. -/
theorem tts_valid_request_flow_witness :
    (['h'] : Str) ≠ [] ∧ (1 : Int) ≠ 0 ∧
    ((tts synthOkW encodeOkW (some ['h']) (some 1) (0 : Nat) true).synthCalls =
      [⟨clean_text_for_tts ['h'], "p" ++ toString (1 : Int), 0⟩] ∧
    (∀ audio b,
      synthOkW (clean_text_for_tts ['h']) ("p" ++ toString (1 : Int)) 0 =
        .ok audio →
      true = true → encodeOkW audio = .ok b →
      (tts synthOkW encodeOkW (some ['h']) (some 1) (0 : Nat) true).result =
        .ok ⟨b, "audio/flac"⟩) ∧
    (∀ audio,
      synthOkW (clean_text_for_tts ['h']) ("p" ++ toString (1 : Int)) 0 =
        .ok audio →
      true = false →
      (tts synthOkW encodeOkW (some ['h']) (some 1) (0 : Nat) true).result =
        .ok ⟨audio, "audio/wav"⟩)) :=
  ⟨by decide, by decide,
    tts_valid_request_flow Nat Nat synthOkW encodeOkW ['h'] 1 0 true
      (by decide) (by decide)⟩

/-- C5: evidence of the cleanup bug.  When the synthesis capability
fails on a valid request, the handler has created the staged WAV file
and propagates the failure without deleting it: `tempsCreated` records
the WAV temp, `tempsRemoved` is empty.  The spec requires every
temporary to be released on every exit path, including error paths, so
the code contradicts the specified obligation. -/
theorem tts_synth_error_leaks_wav :
    @tts Nat Nat (fun _ _ _ => Except.error "synthesis failed")
        (fun a => Except.ok a) (some ['h', 'i']) (some 1) 0 true =
      ⟨.error (.upstream "synthesis failed"),
        [⟨clean_text_for_tts ['h', 'i'], "p1", 0⟩], [.wav], []⟩ := by
  decide

/-- C6 counterexample: `clean_text_for_tts` is not idempotent as
claimed.  On `a`, newline, `****`, newline, `b`, the bold pass deletes
the `****` line entirely; the blank line this creates appears after
blank-line removal already ran, so the first output keeps an empty line
that only a second pass removes. -/
theorem clean_text_not_idempotent :
    clean_text_for_tts (clean_text_for_tts "a\n****\nb".toList) ≠
      clean_text_for_tts "a\n****\nb".toList ∧
    clean_text_for_tts "a\n****\nb".toList = "a\n\nb".toList ∧
    clean_text_for_tts (clean_text_for_tts "a\n****\nb".toList) = "a\nb".toList := by
  decide

/-- C6 (amended): `clean_text_for_tts` is idempotent on every input
whose first normalization contains no empty line (the fixed-point
property guarantees the output is free of markdown markers and degree
abbreviations, but markdown stripping or emoji removal can empty a
line, and the resulting blank line is only dropped by a second pass;
when no line was emptied, the second pass is the identity). -/
theorem clean_text_idempotent_of_no_blank_line (x : Str)
    (hnil : [] ∉ pySplitlines (clean_text_for_tts x)) :
    clean_text_for_tts (clean_text_for_tts x) = clean_text_for_tts x :=
  clean_pass2_id (clean_no_star x) (clean_no_percent x) (clean_no_cr x)
    (clean_noDS x) (clean_only_nl x) (clean_no_emoji x) (clean_head_not_ws x)
    (clean_last_not_ws x) (clean_no_degF x) (clean_no_degC x) (clean_no_degK x)
    hnil

/-- C6 witness: the amended idempotence applied at a concrete input. -/
theorem clean_text_idempotent_witness :
    ([] ∉ pySplitlines (clean_text_for_tts "hi there".toList)) ∧
    clean_text_for_tts (clean_text_for_tts "hi there".toList) =
      clean_text_for_tts "hi there".toList :=
  ⟨by decide, clean_text_idempotent_of_no_blank_line _ (by decide)⟩

/-- C7: the concrete examples of the spec evaluate exactly as stated
(the third example writes the apostrophe as code point 39). -/
theorem clean_text_spec_examples :
    clean_text_for_tts "**a** and *b*".toList = "a and b".toList ∧
    clean_text_for_tts "50% off".toList = "50 percent off".toList ∧
    clean_text_for_tts
        ("it".toList ++ [Char.ofNat 39] ++ "s 70°F today".toList) =
      ("it".toList ++ [Char.ofNat 39] ++ "s 70° Fahrenheit today".toList) ∧
    clean_text_for_tts [] = [] := by
  decide

/-- C8: the `"  +"` substitution is a literal three-character substring
replace performed before whitespace collapse, not a regex quantifier: a
plus after two spaces becomes a dash (and the spaces later collapse),
while a plus after a single space is untouched. -/
theorem plus_replace_is_literal :
    replacePlusSeq "a  +b".toList = "a  -b".toList ∧
    clean_text_for_tts "a  +b".toList = "a -b".toList ∧
    clean_text_for_tts "a +b".toList = "a +b".toList := by
  decide

/-- C9: `clean_text_for_tts` is total and deterministic as an
algorithm: for every input there is a terminating run of the pipeline
(including the two unbounded search-and-replace loops, presented as a
step relation run to exhaustion) and every such run produces exactly
`clean_text_for_tts x`. -/
theorem normalizeRun_iff_clean (x y : Str) :
    NormalizeRun x y ↔ y = clean_text_for_tts x := by
  rw [NormalizeRun]
  constructor
  · rintro ⟨m, hrun, rfl⟩
    rw [markdownRun_iff] at hrun
    rw [hrun, ← clean_text_for_tts_eq]
  · rintro rfl
    exact ⟨remove_markdown_styles (preMarkdown x),
      (markdownRun_iff _ _).mpr rfl, clean_text_for_tts_eq x⟩

/-- C10: the `while match:` loops of `remove_markdown_styles` terminate
although the source has no iteration guard: every iteration replaces a
span of length `inner + 2 * offset` by `inner`, shortening the message
by exactly `2 * offset` characters, and running each loop with fuel
equal to the message length reaches a state where `re.search` finds no
match. -/
theorem markdown_loop_terminates :
    (∀ (off : Nat) (m pre inner rest : Str), 1 ≤ off →
      searchStyle off m = some (pre, inner, rest) →
      (styleStepFn off inner m).length + 2 * off = m.length) ∧
    (∀ m : Str, searchStyle 2 (removeStyle 2 m) = none ∧
      searchStyle 1 (removeStyle 1 m) = none) :=
  ⟨fun off m pre inner rest hoff h => styleStep_length off hoff h,
    fun m => ⟨(removeStyle_done 2 (by omega) m).1,
      (removeStyle_done 1 (by omega) m).1⟩⟩

/-- C10 witness: the length decrease applied at a concrete match. -/
theorem markdown_loop_terminates_witness :
    ((1 : Nat) ≤ 1 ∧ searchStyle 1 "*a*".toList = some ([], ['a'], [])) ∧
    (styleStepFn 1 ['a'] "*a*".toList).length + 2 * 1 = ("*a*".toList).length :=
  ⟨⟨by decide, by decide⟩,
    markdown_loop_terminates.1 1 "*a*".toList [] ['a'] [] (by decide) (by decide)⟩
